import Mathlib

/-!
Verification of the visibility engine of `starlink_visible.py`.

Conventions of the shallow embedding:

* Absolute instants and durations are rationals, counted in seconds
  (Python `datetime` arithmetic at second granularity is exact), and
  float-valued angles (degrees) are modelled as exact rationals.
* The Skyfield propagation-plus-topocentric composite
  `(sat - site).at(t).altaz()` of line 95-96 is an abstract parameter
  `altaz : Sat → ℚ → Option (ℚ × ℚ)` returning `(elevationDeg, azimuthDeg)`.
  `none` models a propagation failure: Skyfield reports SGP4 failures as NaN
  positions rather than exceptions, `NaN >= min_el` is false in IEEE/Python,
  so such a sample is dropped for that instant.
* The Python dict `visible` is keyed by `EarthSatellite` object identity;
  every object in the catalog list is freshly constructed, so the catalog is
  duplicate-free.  Theorems about per-satellite grouping therefore carry a
  `Nodup` hypothesis on the catalog.
* The `EarthSatellite` constructor of line 37 is an abstract fallible
  parameter (Skyfield/sgp4 raise `ValueError` on lines whose fixed-column
  fields do not parse); `load_tles` has no handler around it, which the
  exception-propagating embedding `load_tlesE` makes explicit.
-/

namespace Starlink

/-- One retained visibility sample `(dt, alt_deg.degrees, az_deg.degrees % 360.0)`
from line 98 of `starlink_visible.py`: time in seconds, elevation and azimuth
in degrees. -/
structure Sample where
  t : ℚ
  el : ℚ
  az : ℚ
deriving DecidableEq, Repr

/-- Python's modulo on numbers with positive divisor, in exact arithmetic:
`x % y = x - y * floor(x / y)`.  This models `az_deg.degrees % 360.0`
(line 98). -/
def pymod (x y : ℚ) : ℚ := x - y * ⌊x / y⌋

/-- Text lines are modelled as character lists (Lean `String` primitives do
not reduce in the kernel; `List Char` carries the same information and is
fully executable). -/
abbrev Line := List Char

/-- Python `l.startswith(pre)` on character lists: `beginsWith pre l` tests
whether `pre` is an initial segment of `l`. -/
def beginsWith : Line → Line → Bool
  | [], _ => true
  | _ :: _, [] => false
  | p :: ps, c :: cs => p == c && beginsWith ps cs

/-- The literal marker `"1 "` of line 36. -/
def marker1 : Line := ['1', ' ']

/-- The literal marker `"2 "` of line 36. -/
def marker2 : Line := ['2', ' ']

/-- Python `str.strip` from the left only: drop leading whitespace. -/
def lstripWS : Line → Line
  | [] => []
  | c :: cs => if c.isWhitespace then lstripWS cs else c :: cs

/-- Python `ln.strip()`: drop leading and trailing whitespace. -/
def stripWS (l : Line) : Line :=
  (lstripWS ((lstripWS l).reverse)).reverse

/-- Line 32: `lines = [ln.strip() for ln in f if ln.strip()]` — strip every
line and keep the non-blank ones. -/
def cleanLines (raw : List Line) : List Line :=
  (raw.map stripWS).filter (fun ln => ln ≠ [])

/-- The triple scan of `load_tles` (lines 33-41) in recursive list form:
consume `(name, l1, l2)` and advance three lines when `l1` starts with
`"1 "` and `l2` starts with `"2 "`, otherwise advance one line and retry;
stop when fewer than three lines remain. -/
def load_tles : List Line → List (Line × Line × Line)
  | name :: l1 :: l2 :: rest =>
    if beginsWith marker1 l1 && beginsWith marker2 l2 then
      (name, l1, l2) :: load_tles rest
    else
      load_tles (l1 :: l2 :: rest)
  | _ => []

/-- Code-faithful index loop of `load_tles` (lines 33-41):
`while i + 2 < len(lines)` with `i += 3` on a match and `i += 1` otherwise. -/
def load_tles_loop (lines : List Line) (i : Nat) : List (Line × Line × Line) :=
  if h : i + 2 < lines.length then
    let name := lines[i]!
    let l1 := lines[i+1]!
    let l2 := lines[i+2]!
    if beginsWith marker1 l1 && beginsWith marker2 l2 then
      (name, l1, l2) :: load_tles_loop lines (i + 3)
    else
      load_tles_loop lines (i + 1)
  else []
termination_by lines.length - i

/-- Exception-propagating embedding of `load_tles`: the `EarthSatellite`
constructor call of line 37 is the abstract fallible `mk`; there is no
`try/except` around it in the source, so a failure propagates out of the
whole load. -/
def load_tlesE (mk : Line → Line → Line → Except String α) :
    List Line → Except String (List α)
  | name :: l1 :: l2 :: rest =>
    if beginsWith marker1 l1 && beginsWith marker2 l2 then
      match mk name l1 l2 with
      | Except.error e => Except.error e
      | Except.ok s =>
        match load_tlesE mk rest with
        | Except.error e => Except.error e
        | Except.ok ss => Except.ok (s :: ss)
    else
      load_tlesE mk (l1 :: l2 :: rest)
  | _ => Except.ok []

/-- The generator `frange` (lines 43-47): `t = t0; while t <= t1: yield t;
t += step`.  The source loop diverges when `step <= 0` and `t0 <= t1`
(captured by the fuel-indexed `frangeF` below); this totalised definition
adds the guard `0 < step` so that it agrees with the source exactly on the
terminating inputs. -/
def frange (t0 t1 step : ℚ) : List ℚ :=
  if h : 0 < step ∧ t0 ≤ t1 then
    t0 :: frange (t0 + step) t1 step
  else []
termination_by (⌊(t1 - t0) / step⌋ + 1).toNat
decreasing_by
  obtain ⟨hs, hle⟩ := h
  have hne : step ≠ 0 := ne_of_gt hs
  have e1 : (t1 - (t0 + step)) / step = (t1 - t0) / step - 1 := by
    field_simp
    ring
  rw [e1]
  have e2 : ⌊(t1 - t0) / step - 1⌋ = ⌊(t1 - t0) / step⌋ - 1 := by
    exact_mod_cast Int.floor_sub_int ((t1 - t0) / step) 1
  rw [e2]
  have h0 : (0 : ℤ) ≤ ⌊(t1 - t0) / step⌋ :=
    Int.floor_nonneg.mpr (div_nonneg (by linarith) hs.le)
  omega

/-- Step-indexed (fuel) model of the `frange` while loop: `none` means the
given number of iterations was not enough, so that divergence of the source
loop is expressible as `frangeF` answering `none` for every fuel. -/
def frangeF (step t1 : ℚ) : Nat → ℚ → Option (List ℚ)
  | 0, t => if t ≤ t1 then none else some []
  | n + 1, t =>
    if t ≤ t1 then (frangeF step t1 n (t + step)).map (fun l => t :: l)
    else some []

/-- Lines 95-98 for one `(sat, dt)` pair: evaluate `altaz`, keep the sample
iff the elevation passes `min_el`, and normalise the azimuth by `% 360.0`. -/
def sampleAt (altaz : σ → ℚ → Option (ℚ × ℚ)) (minEl : ℚ) (sat : σ) (t : ℚ) :
    Option Sample :=
  match altaz sat t with
  | some (el, az) => if minEl ≤ el then some ⟨t, el, pymod az 360⟩ else none
  | none => none

/-- The per-satellite sample list accumulated into `visible[sat]` by the
dt-major loop of lines 92-98: the retained samples in grid order. -/
def visibleSamples (altaz : σ → ℚ → Option (ℚ × ℚ)) (minEl : ℚ)
    (grid : List ℚ) (sat : σ) : List Sample :=
  grid.filterMap (sampleAt altaz minEl sat)

/-- The segmentation loop state machine of lines 102-110: `chunk` is the
current pass under construction, `prev` the previously retained sample,
`rows` the passes already emitted. -/
def segLoop (tol : ℚ) : List Sample → List Sample → Option Sample →
    List (List Sample) → List (List Sample)
  | [], chunk, _, rows => if chunk ≠ [] then rows ++ [chunk] else rows
  | s :: rest, chunk, prev, rows =>
    match prev with
    | some p =>
      if s.t - p.t > tol then
        segLoop tol rest [s] (some s) (if chunk ≠ [] then rows ++ [chunk] else rows)
      else
        segLoop tol rest (chunk ++ [s]) (some s) rows
    | none => segLoop tol rest (chunk ++ [s]) (some s) rows

/-- The pass segmenter of lines 102-110, started with `chunk, prev = [], None`. -/
def segment (tol : ℚ) (samples : List Sample) : List (List Sample) :=
  segLoop tol samples [] none []

/-- Splits off the continuation of the current pass: given the previously
retained sample `p`, returns the samples that keep the pass open (each within
`tol` of its predecessor) and the remainder starting at the first sample
whose gap strictly exceeds `tol`. -/
def chainSplit (tol : ℚ) : List Sample → Sample → List Sample × List Sample
  | [], _ => ([], [])
  | s :: rest, p =>
    if s.t - p.t > tol then ([], s :: rest)
    else
      let pr := chainSplit tol rest s
      (s :: pr.1, pr.2)

/-- Structural form of the segmenter following the specification's wording:
each pass is a maximal chain of samples whose consecutive gaps are at most
`tol`; a gap strictly larger than `tol` starts the next pass. -/
def specSegment (tol : ℚ) : List Sample → List (List Sample)
  | [] => []
  | s :: rest =>
    (s :: (chainSplit tol rest s).1) :: specSegment tol (chainSplit tol rest s).2
termination_by l => l.length
decreasing_by
  have hlen : ∀ (l : List Sample) (p : Sample),
      (chainSplit tol l p).2.length ≤ l.length := by
    intro l
    induction l with
    | nil => intro p; simp [chainSplit]
    | cons a as ih =>
      intro p
      by_cases hc : a.t - p.t > tol
      · simp [chainSplit, hc]
      · simp only [chainSplit, if_neg hc]
        exact le_trans (ih a) (Nat.le_succ _)
  simp only [List.length_cons]
  exact Nat.lt_succ_of_le (hlen rest s)

/-- First-occurrence deduplication: the iteration order of a Python dict is
insertion order, i.e. the order of first insertion of each key. -/
def firstDedup [DecidableEq α] : List α → List α
  | [] => []
  | a :: as => a :: firstDedup (as.filter (fun x => x ≠ a))
termination_by l => l.length
decreasing_by
  simp only [List.length_cons]
  exact Nat.lt_succ_of_le (List.length_filter_le _ _)

/-- Insertion order of the keys of the dict `visible` built by the dt-major,
then catalog-order loop of lines 92-98: a satellite is inserted when its
first sample is retained. -/
def insertOrder [DecidableEq σ] (altaz : σ → ℚ → Option (ℚ × ℚ)) (minEl : ℚ)
    (sats : List σ) (grid : List ℚ) : List σ :=
  firstDedup
    ((grid.map (fun t =>
        sats.filter (fun s => (sampleAt altaz minEl s t).isSome))).flatten)

/-- Sorting a sample list by time, line 101: Python's `list.sort` is a stable
sort, modelled by `List.mergeSort`. -/
def sortByTime (l : List Sample) : List Sample :=
  l.mergeSort (fun a b => decide (a.t ≤ b.t))

/-- Lines 99-110: for each satellite of the dict in insertion order, sort its
samples by time, segment them with the fixed 180 s tolerance, and append the
resulting `(sat, chunk)` rows. -/
def visibleRows [DecidableEq σ] (altaz : σ → ℚ → Option (ℚ × ℚ)) (minEl : ℚ)
    (sats : List σ) (grid : List ℚ) : List (σ × List Sample) :=
  ((insertOrder altaz minEl sats grid).map
    (fun s =>
      (segment 180 (sortByTime (visibleSamples altaz minEl grid s))).map
        (fun c => (s, c)))).flatten

/-- Line 111: `max(el for _, el, _ in r[1])`, the peak elevation of a pass
(the source only evaluates it on non-empty chunks; the `[]` value is junk). -/
def peakEl : List Sample → ℚ
  | [] => 0
  | s :: rest => rest.foldl (fun m x => max m x.el) s.el

/-- Line 111: `rows.sort(key=lambda r: max(...), reverse=True)` — a stable
descending sort by peak elevation. -/
def rank [DecidableEq σ] (rows : List (σ × List Sample)) : List (σ × List Sample) :=
  rows.mergeSort (fun r1 r2 => decide (peakEl r2.2 ≤ peakEl r1.2))

/-- The engine `visible_list` (lines 85-112) downstream of the abstract
`altaz`: empty catalog short-circuits to `[]` (lines 87-89), otherwise
sample, segment and rank. -/
def visible_list [DecidableEq σ] (altaz : σ → ℚ → Option (ℚ × ℚ)) (minEl : ℚ)
    (sats : List σ) (t0 t1 step : ℚ) : List (σ × List Sample) :=
  match sats with
  | [] => []
  | _ => rank (visibleRows altaz minEl sats (frange t0 t1 step))

/-- The argument fields of `main` that decide the time window (lines 129-139). -/
structure Args where
  now : Bool
  durationMin : ℤ
  startQ : Option ℚ
  endQ : Option ℚ
deriving Repr

/-- The time-window resolution of `main` (lines 129-139): `--now` builds a
window around the current time, otherwise both `--start` and `--end` are
required (`ap.error` aborts when one is missing); no other validation is
performed on the window. -/
def windowOf (args : Args) (nowTime : ℚ) : Except String (ℚ × ℚ) :=
  if args.now then
    let half : ℚ := (max 1 args.durationMin : ℤ) * 60 / 2
    Except.ok (nowTime - half, nowTime + half)
  else
    match args.startQ, args.endQ with
    | some s, some e => Except.ok (s, e)
    | _, _ => Except.error "Provide --now OR both --start and --end"

/-! ### Parser lemmas -/

theorem load_tles_short (l : List Line) (h : l.length < 3) : load_tles l = [] := by
  match l, h with
  | [], _ => rfl
  | [a], _ => rfl
  | [a, b], _ => rfl

theorem load_tles_loop_eq_drop (lines : List Line) (i : Nat) :
    load_tles_loop lines i = load_tles (lines.drop i) := by
  have main : ∀ (n i : Nat), lines.length - i ≤ n →
      load_tles_loop lines i = load_tles (lines.drop i) := by
    intro n
    induction n with
    | zero =>
      intro i hi
      have hlen : lines.length ≤ i := by omega
      rw [load_tles_loop, dif_neg (by omega)]
      rw [List.drop_eq_nil_of_le hlen]
      rfl
    | succ n ih =>
      intro i hi
      by_cases h : i + 2 < lines.length
      · have h0 : i < lines.length := by omega
        have h1 : i + 1 < lines.length := by omega
        have h2 : i + 2 < lines.length := h
        have d0 : lines.drop i = lines[i] :: lines.drop (i + 1) :=
          List.drop_eq_getElem_cons h0
        have d1 : lines.drop (i + 1) = lines[i+1] :: lines.drop (i + 2) :=
          List.drop_eq_getElem_cons h1
        have d2 : lines.drop (i + 2) = lines[i+2] :: lines.drop (i + 3) :=
          List.drop_eq_getElem_cons h2
        rw [load_tles_loop, dif_pos h]
        simp only [getElem!_pos lines i h0, getElem!_pos lines (i+1) h1,
          getElem!_pos lines (i+2) h2]
        rw [d0, d1, d2, load_tles]
        by_cases hm : (beginsWith marker1 lines[i+1] && beginsWith marker2 lines[i+2]) = true
        · rw [if_pos hm, if_pos hm, ih (i + 3) (by omega)]
        · rw [if_neg hm, if_neg hm, ih (i + 1) (by omega), d1, d2]
      · rw [load_tles_loop, dif_neg h]
        have : (lines.drop i).length < 3 := by
          rw [List.length_drop]
          omega
        rw [load_tles_short _ this]
  exact main (lines.length - i) i le_rfl

/-- C5: the parser walks the non-blank stripped lines left to right; the
index loop of the source equals the recursive triple scan, which emits a
record and advances three lines exactly when the two marker prefixes match,
advances one line otherwise, and stops when fewer than three lines remain. -/
theorem c5_parser_scan (raw : List Line) :
    load_tles_loop (cleanLines raw) 0 = load_tles (cleanLines raw) ∧
    (∀ (name l1 l2 : Line) (rest : List Line),
        (beginsWith marker1 l1 && beginsWith marker2 l2) = true →
        load_tles (name :: l1 :: l2 :: rest) = (name, l1, l2) :: load_tles rest) ∧
    (∀ (name l1 l2 : Line) (rest : List Line),
        (beginsWith marker1 l1 && beginsWith marker2 l2) = false →
        load_tles (name :: l1 :: l2 :: rest) = load_tles (l1 :: l2 :: rest)) ∧
    (∀ l : List Line, l.length < 3 → load_tles l = []) := by
  refine ⟨?_, ?_, ?_, ?_⟩
  · rw [load_tles_loop_eq_drop, List.drop_zero]
  · intro name l1 l2 rest hm
    rw [load_tles, if_pos hm]
  · intro name l1 l2 rest hm
    rw [load_tles, if_neg (by simp [hm])]
  · exact load_tles_short

/-- Witness for C5 at a concrete catalog: one valid triple preceded by a
stray line; the loop and the scan agree and emit exactly the matching
triple. -/
theorem c5_parser_scan_witness :
    load_tles_loop (cleanLines [['x'], ['N'], ['1', ' ', 'a'], ['2', ' ', 'b']]) 0
        = load_tles (cleanLines [['x'], ['N'], ['1', ' ', 'a'], ['2', ' ', 'b']]) ∧
    load_tles [['N'], ['1', ' ', 'a'], ['2', ' ', 'b']]
        = [(['N'], ['1', ' ', 'a'], ['2', ' ', 'b'])] := by
  constructor
  · exact (c5_parser_scan [['x'], ['N'], ['1', ' ', 'a'], ['2', ' ', 'b']]).1
  · rw [(c5_parser_scan []).2.1 ['N'] ['1', ' ', 'a'] ['2', ' ', 'b'] [] (by decide)]
    rfl

/-- C6 counterexample: a triple whose two lines carry the correct `"1 "`/`"2 "`
markers but whose fixed-column fields are invalid makes the abstract
`EarthSatellite` constructor fail (Skyfield/sgp4 raise `ValueError` on such
lines), and `load_tles` has no handler, so the whole load fails instead of
skipping the malformed entry. -/
theorem c6_counterexample :
    load_tlesE (fun _ _ _ => (Except.error "ValueError" : Except String Unit))
        [['N'], ['1', ' ', 'x'], ['2', ' ', 'x']]
      = Except.error "ValueError" := rfl

/-- C6 (amended): lines that fail the marker check are skipped without any
error, and the load completes without error provided the element-set
constructor succeeds on every emitted triple; a constructor failure on an
emitted triple propagates out of the load. -/
theorem c6_amended (mk : Line → Line → Line → Except String α) (lines : List Line)
    (hok : ∀ tr ∈ load_tles lines, ∃ s, mk tr.1 tr.2.1 tr.2.2 = Except.ok s) :
    ∃ out, load_tlesE mk lines = Except.ok out := by
  have main : ∀ (n : Nat) (l : List Line), l.length ≤ n →
      (∀ tr ∈ load_tles l, ∃ s, mk tr.1 tr.2.1 tr.2.2 = Except.ok s) →
      ∃ out, load_tlesE mk l = Except.ok out := by
    intro n
    induction n with
    | zero =>
      intro l hl _
      match l, hl with
      | [], _ => exact ⟨[], rfl⟩
    | succ n ih =>
      intro l hl hok
      match l with
      | [] => exact ⟨[], rfl⟩
      | [a] => exact ⟨[], rfl⟩
      | [a, b] => exact ⟨[], rfl⟩
      | name :: l1 :: l2 :: rest =>
        by_cases hm : (beginsWith marker1 l1 && beginsWith marker2 l2) = true
        · have hemit : (name, l1, l2) ∈ load_tles (name :: l1 :: l2 :: rest) := by
            rw [load_tles, if_pos hm]
            exact List.mem_cons_self _ _
          obtain ⟨s, hs⟩ := hok _ hemit
          have hrest : ∀ tr ∈ load_tles rest, ∃ s, mk tr.1 tr.2.1 tr.2.2 = Except.ok s := by
            intro tr htr
            apply hok
            rw [load_tles, if_pos hm]
            exact List.mem_cons_of_mem _ htr
          obtain ⟨out, hout⟩ := ih rest (by simp at hl; omega) hrest
          refine ⟨s :: out, ?_⟩
          rw [load_tlesE, if_pos hm, hs, hout]
        · have hrest : ∀ tr ∈ load_tles (l1 :: l2 :: rest),
              ∃ s, mk tr.1 tr.2.1 tr.2.2 = Except.ok s := by
            intro tr htr
            apply hok
            rw [load_tles, if_neg hm]
            exact htr
          obtain ⟨out, hout⟩ := ih (l1 :: l2 :: rest) (by simp at hl ⊢; omega) hrest
          refine ⟨out, ?_⟩
          rw [load_tlesE, if_neg hm, hout]
  exact main lines.length lines le_rfl hok

/-- Witness for the amended C6: a constructor that always succeeds makes the
load of a catalog with one stray line and one valid triple complete without
error. -/
theorem c6_amended_witness :
    ∃ out, load_tlesE (fun name l1 l2 => (Except.ok (name, l1, l2)))
        [['x'], ['N'], ['1', ' '], ['2', ' ']] = Except.ok out :=
  c6_amended (fun name l1 l2 => Except.ok (name, l1, l2))
    [['x'], ['N'], ['1', ' '], ['2', ' ']]
    (fun tr _ => ⟨(tr.1, tr.2.1, tr.2.2), rfl⟩)

/-! ### Grid lemmas -/

theorem frange_nil (t0 t1 step : ℚ) (h : ¬(0 < step ∧ t0 ≤ t1)) :
    frange t0 t1 step = [] := by
  rw [frange, dif_neg h]

theorem frange_eq_map (t1 step : ℚ) (hs : 0 < step) :
    ∀ (n : Nat) (t0 : ℚ), t0 ≤ t1 → ⌊(t1 - t0) / step⌋.toNat = n →
      frange t0 t1 step = (List.range (n + 1)).map (fun i : ℕ => t0 + (i : ℚ) * step) := by
  intro n
  induction n with
  | zero =>
    intro t0 hle hn
    rw [frange, dif_pos ⟨hs, hle⟩]
    have hstop : ¬ (t0 + step ≤ t1) := by
      intro hcon
      have h1 : (1 : ℚ) ≤ (t1 - t0) / step := by
        rw [le_div_iff₀ hs]
        linarith
      have h2 : (1 : ℤ) ≤ ⌊(t1 - t0) / step⌋ := Int.le_floor.mpr (by exact_mod_cast h1)
      omega
    rw [frange_nil _ _ _ (fun hc => hstop hc.2)]
    norm_num [List.range_succ]
  | succ n ih =>
    intro t0 hle hn
    have hfl0 : (0 : ℤ) ≤ ⌊(t1 - t0) / step⌋ :=
      Int.floor_nonneg.mpr (div_nonneg (by linarith) hs.le)
    have hfl : ⌊(t1 - t0) / step⌋ = (n : ℤ) + 1 := by omega
    have hnext : t0 + step ≤ t1 := by
      have h1 : ((1 : ℤ) : ℚ) ≤ (t1 - t0) / step := by
        refine le_trans ?_ (Int.floor_le _)
        exact_mod_cast (by omega : (1 : ℤ) ≤ ⌊(t1 - t0) / step⌋)
      rw [le_div_iff₀ hs] at h1
      push_cast at h1
      linarith
    have hfl2 : ⌊(t1 - (t0 + step)) / step⌋.toNat = n := by
      have e1 : (t1 - (t0 + step)) / step = (t1 - t0) / step - 1 := by
        field_simp
        ring
      have e2 : ⌊(t1 - t0) / step - 1⌋ = ⌊(t1 - t0) / step⌋ - 1 := by
        exact_mod_cast Int.floor_sub_int ((t1 - t0) / step) 1
      rw [e1, e2, hfl]
      omega
    rw [frange, dif_pos ⟨hs, hle⟩, ih (t0 + step) hnext hfl2]
    conv_rhs => rw [List.range_succ_eq_map]
    rw [List.map_cons, List.map_map]
    congr 1
    · simp
    · apply List.map_congr_left
      intro i _
      simp only [Function.comp_apply]
      push_cast
      ring

theorem frange_closed (t0 t1 step : ℚ) (hs : 0 < step) (hle : t0 ≤ t1) :
    frange t0 t1 step =
      (List.range (⌊(t1 - t0) / step⌋.toNat + 1)).map (fun i : ℕ => t0 + (i : ℚ) * step) :=
  frange_eq_map t1 step hs _ t0 hle rfl

theorem frange_pairwise (t0 t1 step : ℚ) (hs : 0 < step) :
    List.Pairwise (fun a b => a < b) (frange t0 t1 step) := by
  by_cases hle : t0 ≤ t1
  · rw [frange_closed t0 t1 step hs hle, List.pairwise_map]
    refine List.Pairwise.imp ?_ (List.pairwise_lt_range _)
    intro i j hij
    have hq : (i : ℚ) < j := by exact_mod_cast hij
    have := mul_lt_mul_of_pos_right hq hs
    linarith
  · rw [frange_nil _ _ _ (fun hc => hle hc.2)]
    exact List.Pairwise.nil

theorem frange_mem_bounds (t0 t1 step : ℚ) (hs : 0 < step) :
    ∀ t ∈ frange t0 t1 step, t0 ≤ t ∧ t ≤ t1 := by
  by_cases hle : t0 ≤ t1
  · rw [frange_closed _ _ _ hs hle]
    intro t ht
    rw [List.mem_map] at ht
    obtain ⟨i, hi, rfl⟩ := ht
    rw [List.mem_range] at hi
    have hfl0 : (0 : ℤ) ≤ ⌊(t1 - t0) / step⌋ :=
      Int.floor_nonneg.mpr (div_nonneg (by linarith) hs.le)
    constructor
    · have : (0 : ℚ) ≤ i * step := mul_nonneg (by positivity) hs.le
      linarith
    · have hile : (i : ℤ) ≤ ⌊(t1 - t0) / step⌋ := by omega
      have h2 : (i : ℚ) ≤ (t1 - t0) / step := by
        refine le_trans ?_ (Int.floor_le _)
        exact_mod_cast hile
      rw [le_div_iff₀ hs] at h2
      linarith
  · rw [frange_nil _ _ _ (fun hc => hle hc.2)]
    intro t ht
    cases ht

theorem frange_mem_start (t0 t1 step : ℚ) (hs : 0 < step) (hle : t0 ≤ t1) :
    t0 ∈ frange t0 t1 step := by
  rw [frange, dif_pos ⟨hs, hle⟩]
  exact List.mem_cons_self _ _

theorem frange_mem_end (t0 t1 step : ℚ) (hs : 0 < step) (hle : t0 ≤ t1)
    (hmul : ∃ n : ℕ, t1 - t0 = n * step) : t1 ∈ frange t0 t1 step := by
  obtain ⟨n, hn⟩ := hmul
  rw [frange_closed _ _ _ hs hle, List.mem_map]
  refine ⟨n, ?_, by linarith⟩
  rw [List.mem_range]
  have hdiv : (t1 - t0) / step = (n : ℚ) := by
    rw [hn]
    field_simp
  have hfl : ⌊(t1 - t0) / step⌋ = (n : ℤ) := by
    rw [hdiv]
    exact_mod_cast Int.floor_natCast n
  omega

/-! ### Sample lemmas -/

theorem sampleAt_time {σ : Type} (altaz : σ → ℚ → Option (ℚ × ℚ)) (minEl : ℚ)
    (sat : σ) (t : ℚ) (smp : Sample)
    (h : sampleAt altaz minEl sat t = some smp) : smp.t = t := by
  cases haz : altaz sat t with
  | none => simp [sampleAt, haz] at h
  | some p =>
    obtain ⟨el, az⟩ := p
    by_cases hc : minEl ≤ el
    · simp only [sampleAt, haz, if_pos hc, Option.some_inj] at h
      rw [← h]
    · simp [sampleAt, haz, if_neg hc] at h

theorem sampleAt_azimuth {σ : Type} (altaz : σ → ℚ → Option (ℚ × ℚ)) (minEl : ℚ)
    (sat : σ) (t : ℚ) (smp : Sample)
    (h : sampleAt altaz minEl sat t = some smp) : ∃ az, smp.az = pymod az 360 := by
  cases haz : altaz sat t with
  | none => simp [sampleAt, haz] at h
  | some p =>
    obtain ⟨el, az⟩ := p
    by_cases hc : minEl ≤ el
    · simp only [sampleAt, haz, if_pos hc, Option.some_inj] at h
      exact ⟨az, by rw [← h]⟩
    · simp [sampleAt, haz, if_neg hc] at h

theorem mem_visibleSamples_time {σ : Type} (altaz : σ → ℚ → Option (ℚ × ℚ))
    (minEl : ℚ) (grid : List ℚ) (sat : σ) (t el az : ℚ)
    (hsome : altaz sat t = some (el, az)) :
    (∃ smp ∈ visibleSamples altaz minEl grid sat, smp.t = t)
      ↔ (t ∈ grid ∧ minEl ≤ el) := by
  constructor
  · rintro ⟨smp, hmem, ht⟩
    rw [visibleSamples, List.mem_filterMap] at hmem
    obtain ⟨u, hu, hsm⟩ := hmem
    have hut : smp.t = u := sampleAt_time altaz minEl sat u smp hsm
    have : u = t := by rw [← hut, ht]
    subst this
    refine ⟨hu, ?_⟩
    by_cases hc : minEl ≤ el
    · exact hc
    · simp [sampleAt, hsome, if_neg hc] at hsm
  · rintro ⟨hg, hel⟩
    refine ⟨⟨t, el, pymod az 360⟩, ?_, rfl⟩
    rw [visibleSamples, List.mem_filterMap]
    exact ⟨t, hg, by simp [sampleAt, hsome, if_pos hel]⟩

/-- C3: with a positive step and start ≤ end the sampler evaluates exactly
the closed arithmetic progression of instants start, start+step, ... lying
in [start, end] (end included when end - start is an exact multiple of the
step), and a (satellite, instant) pair whose transform succeeds contributes
a retained sample iff its elevation is at least the threshold. -/
theorem c3_sampler_grid {σ : Type} (altaz : σ → ℚ → Option (ℚ × ℚ)) (minEl : ℚ)
    (sat : σ) (t0 t1 step : ℚ) (hs : 0 < step) (hle : t0 ≤ t1) :
    frange t0 t1 step
        = (List.range (⌊(t1 - t0) / step⌋.toNat + 1)).map (fun i : ℕ => t0 + (i : ℚ) * step) ∧
    (∀ t ∈ frange t0 t1 step, t0 ≤ t ∧ t ≤ t1) ∧
    t0 ∈ frange t0 t1 step ∧
    ((∃ n : ℕ, t1 - t0 = n * step) → t1 ∈ frange t0 t1 step) ∧
    visibleSamples altaz minEl (frange t0 t1 step) sat
        = (frange t0 t1 step).filterMap (sampleAt altaz minEl sat) ∧
    (∀ t el az, altaz sat t = some (el, az) →
        ((∃ smp ∈ visibleSamples altaz minEl (frange t0 t1 step) sat, smp.t = t)
          ↔ (t ∈ frange t0 t1 step ∧ minEl ≤ el))) :=
  ⟨frange_closed t0 t1 step hs hle,
   frange_mem_bounds t0 t1 step hs,
   frange_mem_start t0 t1 step hs hle,
   frange_mem_end t0 t1 step hs hle,
   rfl,
   fun t el az hsome => mem_visibleSamples_time altaz minEl _ sat t el az hsome⟩

/-- Witness for C3: a one-minute window sampled at 30 s with an always-high
satellite; the grid is the three instants 0, 30, 60 and the instant 30 is
retained. -/
theorem c3_sampler_grid_witness :
    frange 0 60 30
        = (List.range (⌊((60 : ℚ) - 0) / 30⌋.toNat + 1)).map (fun i : ℕ => 0 + (i : ℚ) * 30) ∧
    ((∃ smp ∈ visibleSamples (fun (_ : Nat) (_ : ℚ) => some (45, 10)) 10 (frange 0 60 30) 0,
        smp.t = 30) ↔ ((30 : ℚ) ∈ frange 0 60 30 ∧ (10 : ℚ) ≤ 45)) := by
  have h := c3_sampler_grid (fun (_ : Nat) (_ : ℚ) => some (45, 10)) 10 0 0 60 30
    (by norm_num) (by norm_num)
  exact ⟨h.1, h.2.2.2.2.2 30 45 10 rfl⟩

/-! ### Fuel model of the generator -/

theorem frangeF_diverges (step t1 t0 : ℚ) (hstep : step ≤ 0) (hle : t0 ≤ t1) :
    ∀ n, frangeF step t1 n t0 = none := by
  have main : ∀ (n : Nat) (t : ℚ), t ≤ t1 → frangeF step t1 n t = none := by
    intro n
    induction n with
    | zero =>
      intro t ht
      rw [frangeF, if_pos ht]
    | succ n ih =>
      intro t ht
      rw [frangeF, if_pos ht, ih (t + step) (by linarith)]
      rfl
  exact fun n => main n t0 hle

theorem frangeF_computes (step t1 : ℚ) (hs : 0 < step) :
    ∀ (n : Nat) (t0 : ℚ), (frange t0 t1 step).length ≤ n →
      frangeF step t1 n t0 = some (frange t0 t1 step) := by
  intro n
  induction n with
  | zero =>
    intro t0 hlen
    by_cases hle : t0 ≤ t1
    · rw [frange, dif_pos ⟨hs, hle⟩] at hlen
      simp at hlen
    · rw [frangeF, if_neg hle, frange_nil _ _ _ (fun hc => hle hc.2)]
  | succ n ih =>
    intro t0 hlen
    by_cases hle : t0 ≤ t1
    · rw [frange, dif_pos ⟨hs, hle⟩] at hlen ⊢
      rw [List.length_cons] at hlen
      rw [frangeF, if_pos hle, ih (t0 + step) (by omega)]
      rfl
    · rw [frangeF, if_neg hle, frange_nil _ _ _ (fun hc => hle hc.2)]

/-- C10: with a strictly positive step the generator terminates — enough fuel
computes exactly the frange list, whose length is 1 + floor((end-start)/step)
instants when start ≤ end and zero when start > end; with step ≤ 0 and
start ≤ end no amount of fuel suffices, i.e. the source loop diverges. -/
theorem c10_frange_termination (t0 t1 step : ℚ) :
    (0 < step →
        frangeF step t1 (frange t0 t1 step).length t0 = some (frange t0 t1 step)) ∧
    (0 < step → t0 ≤ t1 →
        (frange t0 t1 step).length = ⌊(t1 - t0) / step⌋.toNat + 1) ∧
    (t1 < t0 → frange t0 t1 step = []) ∧
    (step ≤ 0 → t0 ≤ t1 → ∀ n, frangeF step t1 n t0 = none) := by
  refine ⟨?_, ?_, ?_, ?_⟩
  · intro hs
    exact frangeF_computes step t1 hs _ t0 le_rfl
  · intro hs hle
    rw [frange_closed t0 t1 step hs hle]
    simp
  · intro hgt
    exact frange_nil t0 t1 step (fun hc => absurd hc.2 (not_le.mpr hgt))
  · intro hstep hle
    exact frangeF_diverges step t1 t0 hstep hle

/-- Witness for C10: a two-step window terminates with three instants, an
inverted window yields no instants, and a non-positive step never finishes. -/
theorem c10_frange_termination_witness :
    frangeF 30 60 (frange 0 60 30).length 0 = some (frange 0 60 30) ∧
    (frange 0 60 30).length = ⌊((60 : ℚ) - 0) / 30⌋.toNat + 1 ∧
    frange 1 0 30 = [] ∧
    (∀ n, frangeF (-1) 60 n 0 = none) :=
  ⟨(c10_frange_termination 0 60 30).1 (by norm_num),
   (c10_frange_termination 0 60 30).2.1 (by norm_num) (by norm_num),
   (c10_frange_termination 1 0 30).2.2.1 (by norm_num),
   (c10_frange_termination 0 60 (-1)).2.2.2 (by norm_num) (by norm_num)⟩

/-! ### Azimuth normalisation -/

theorem pymod_nonneg (x y : ℚ) (hy : 0 < y) : 0 ≤ pymod x y := by
  unfold pymod
  have h := Int.floor_le (x / y)
  have h2 := mul_le_mul_of_nonneg_left h hy.le
  have hx : y * (x / y) = x := by field_simp
  linarith

theorem pymod_lt (x y : ℚ) (hy : 0 < y) : pymod x y < y := by
  unfold pymod
  have h := Int.lt_floor_add_one (x / y)
  have h2 := mul_lt_mul_of_pos_left h hy
  have hx : y * (x / y) = x := by field_simp
  have he : y * ((⌊x / y⌋ : ℚ) + 1) = y * ⌊x / y⌋ + y := by ring
  linarith

theorem pymod_int_mul (y : ℚ) (hy : y ≠ 0) (k : ℤ) : pymod (y * k) y = 0 := by
  unfold pymod
  have hq : (y * k) / y = (k : ℚ) := by field_simp
  rw [hq, Int.floor_intCast]
  ring

/-- C9: every retained sample's azimuth lies in [0, 360): the `% 360.0`
normalisation of line 98 never emits the boundary value 360, and a raw
azimuth that is an exact multiple of 360 degrees wraps to 0. -/
theorem c9_azimuth_range {σ : Type} (altaz : σ → ℚ → Option (ℚ × ℚ)) (minEl : ℚ)
    (grid : List ℚ) (sat : σ) :
    (∀ smp ∈ visibleSamples altaz minEl grid sat, 0 ≤ smp.az ∧ smp.az < 360) ∧
    (∀ k : ℤ, pymod (360 * k) 360 = 0) := by
  constructor
  · intro smp hmem
    rw [visibleSamples, List.mem_filterMap] at hmem
    obtain ⟨t, _, hsm⟩ := hmem
    obtain ⟨az, haz⟩ := sampleAt_azimuth altaz minEl sat t smp hsm
    rw [haz]
    exact ⟨pymod_nonneg az 360 (by norm_num), pymod_lt az 360 (by norm_num)⟩
  · intro k
    exact pymod_int_mul 360 (by norm_num) k

/-- Witness for C9: a raw azimuth of 725 degrees at a retained sample is
normalised into [0, 360), and the raw value 720 wraps to exactly 0. -/
theorem c9_azimuth_range_witness :
    (∀ smp ∈ visibleSamples (fun (_ : Nat) (_ : ℚ) => some (45, 725)) 10 [0] 0,
        0 ≤ smp.az ∧ smp.az < 360) ∧
    pymod (360 * (2 : ℤ)) 360 = 0 :=
  ⟨(c9_azimuth_range (fun (_ : Nat) (_ : ℚ) => some (45, 725)) 10 [0] 0).1,
   (c9_azimuth_range (fun (_ : Nat) (_ : ℚ) => some (45, 725)) 10 [0] 0).2 2⟩

/-! ### Ranker -/

/-- C4: the ranker's output is sorted non-increasingly by peak elevation, it
is deterministic (equal inputs give equal outputs), and it is a permutation
of its input. -/
theorem c4_ranker {σ : Type} [DecidableEq σ] (rows rows2 : List (σ × List Sample))
    (hdet : rows2 = rows) :
    List.Pairwise (fun a b : σ × List Sample => peakEl b.2 ≤ peakEl a.2) (rank rows) ∧
    rank rows2 = rank rows ∧
    (rank rows).Perm rows := by
  refine ⟨?_, by rw [hdet], List.mergeSort_perm rows _⟩
  have hs := @List.sorted_mergeSort (σ × List Sample)
    (fun r1 r2 : σ × List Sample => decide (peakEl r2.2 ≤ peakEl r1.2))
    (fun a b c hab hbc => by
      simp only [decide_eq_true_eq] at *
      exact le_trans hbc hab)
    (fun a b => by
      simp only [Bool.or_eq_true, decide_eq_true_eq]
      exact le_total _ _)
    rows
  rw [rank]
  exact hs.imp (fun h => by simpa using h)

/-- Witness for C4 on a concrete two-row input. -/
theorem c4_ranker_witness :
    List.Pairwise
      (fun a b : Nat × List Sample => peakEl b.2 ≤ peakEl a.2)
      (rank [(0, [Sample.mk 0 10 0]), (1, [Sample.mk 0 20 0])]) ∧
    rank [(0, [Sample.mk 0 10 0]), (1, [Sample.mk 0 20 0])]
        = rank [(0, [Sample.mk 0 10 0]), (1, [Sample.mk 0 20 0])] ∧
    (rank [(0, [Sample.mk 0 10 0]), (1, [Sample.mk 0 20 0])]).Perm
      [(0, [Sample.mk 0 10 0]), (1, [Sample.mk 0 20 0])] :=
  c4_ranker [(0, [Sample.mk 0 10 0]), (1, [Sample.mk 0 20 0])]
    [(0, [Sample.mk 0 10 0]), (1, [Sample.mk 0 20 0])] rfl

/-! ### Segmenter refinement -/

theorem chainSplit_snd_length (tol : ℚ) :
    ∀ (l : List Sample) (p : Sample), (chainSplit tol l p).2.length ≤ l.length := by
  intro l
  induction l with
  | nil => intro p; simp [chainSplit]
  | cons a as ih =>
    intro p
    by_cases hc : a.t - p.t > tol
    · simp [chainSplit, hc]
    · simp only [chainSplit, if_neg hc]
      exact le_trans (ih a) (Nat.le_succ _)

theorem chainSplit_append (tol : ℚ) :
    ∀ (l : List Sample) (p : Sample),
      (chainSplit tol l p).1 ++ (chainSplit tol l p).2 = l := by
  intro l
  induction l with
  | nil => intro p; rfl
  | cons s rest ih =>
    intro p
    by_cases hc : s.t - p.t > tol
    · simp [chainSplit, hc]
    · simp only [chainSplit, if_neg hc, List.cons_append]
      rw [ih s]

theorem segLoop_some_eq (tol : ℚ) :
    ∀ (samples chunk : List Sample) (p : Sample) (rows : List (List Sample)),
      chunk ≠ [] →
      segLoop tol samples chunk (some p) rows =
        rows ++ (chunk ++ (chainSplit tol samples p).1)
          :: specSegment tol ((chainSplit tol samples p).2) := by
  intro samples
  induction samples with
  | nil =>
    intro chunk p rows hch
    simp [segLoop, chainSplit, specSegment, hch]
  | cons s rest ih =>
    intro chunk p rows hch
    by_cases hc : s.t - p.t > tol
    · simp only [segLoop, if_pos hc, if_pos hch]
      rw [ih [s] s (rows ++ [chunk]) (by simp)]
      simp only [chainSplit, if_pos hc]
      rw [specSegment]
      simp
    · simp only [segLoop, if_neg hc]
      rw [ih (chunk ++ [s]) s rows (by simp)]
      simp only [chainSplit, if_neg hc]
      simp

theorem segment_eq_specSegment (tol : ℚ) (samples : List Sample) :
    segment tol samples = specSegment tol samples := by
  match samples with
  | [] => simp [segment, segLoop, specSegment]
  | s :: rest =>
    rw [segment]
    have h1 : segLoop tol (s :: rest) [] none [] =
        segLoop tol rest ([] ++ [s]) (some s) [] := by
      simp [segLoop]
    rw [h1, List.nil_append, segLoop_some_eq tol rest [s] s [] (by simp)]
    rw [specSegment]
    simp

/-- C2: the segmenter starts a new pass exactly when the gap to the previous
retained sample strictly exceeds the tolerance — a gap exactly equal to the
tolerance keeps the pass open — flushes the in-progress pass at end of list
(so a one-sample pass is emitted), and yields no passes on empty input; the
source loop equals the structural maximal-chain decomposition. -/
theorem c2_segmenter_gaps (tol : ℚ) :
    segment tol [] = [] ∧
    (∀ s : Sample, segment tol [s] = [[s]]) ∧
    (∀ samples : List Sample, segment tol samples = specSegment tol samples) ∧
    (∀ (p s : Sample) (rest : List Sample), s.t - p.t > tol →
        chainSplit tol (s :: rest) p = ([], s :: rest)) ∧
    (∀ (p s : Sample) (rest : List Sample), s.t - p.t ≤ tol →
        chainSplit tol (s :: rest) p =
          (s :: (chainSplit tol rest s).1, (chainSplit tol rest s).2)) := by
  refine ⟨by simp [segment, segLoop], ?_, segment_eq_specSegment tol, ?_, ?_⟩
  · intro s
    simp [segment, segLoop]
  · intro p s rest hgt
    simp [chainSplit, hgt]
  · intro p s rest hle
    simp [chainSplit, not_lt.mpr hle]

/-- Witness for C2: empty input yields no passes, a single sample is flushed
as a one-sample pass, a 181 s gap starts a new pass, and a gap of exactly
180 s keeps the pass open. -/
theorem c2_segmenter_gaps_witness :
    segment 180 [] = [] ∧
    segment 180 [Sample.mk 0 10 0] = [[Sample.mk 0 10 0]] ∧
    chainSplit 180 [Sample.mk 181 10 0] (Sample.mk 0 10 0)
        = ([], [Sample.mk 181 10 0]) ∧
    chainSplit 180 [Sample.mk 180 10 0] (Sample.mk 0 10 0)
        = (Sample.mk 180 10 0 :: (chainSplit 180 [] (Sample.mk 180 10 0)).1,
            (chainSplit 180 [] (Sample.mk 180 10 0)).2) :=
  ⟨(c2_segmenter_gaps 180).1,
   (c2_segmenter_gaps 180).2.1 _,
   (c2_segmenter_gaps 180).2.2.2.1 _ _ [] (by show (181 : ℚ) - 0 > 180; norm_num),
   (c2_segmenter_gaps 180).2.2.2.2 _ _ [] (by show (180 : ℚ) - 0 ≤ 180; norm_num)⟩

/-! ### Chunk properties -/

theorem chainSplit_cross (tol : ℚ) :
    ∀ (l : List Sample) (p : Sample),
      List.Pairwise (fun a b => a.t < b.t) (p :: l) →
      ∀ x ∈ p :: (chainSplit tol l p).1, ∀ y ∈ (chainSplit tol l p).2,
        x.t + tol < y.t := by
  intro l
  induction l with
  | nil =>
    intro p _ x hx y hy
    simp [chainSplit] at hy
  | cons s rest ih =>
    intro p hsort x hx y hy
    by_cases hc : s.t - p.t > tol
    · simp only [chainSplit, if_pos hc] at hx hy
      have hxp : x = p := by simpa using hx
      subst hxp
      rcases List.mem_cons.mp hy with rfl | hyr
      · linarith
      · have hrest : List.Pairwise (fun a b => a.t < b.t) (s :: rest) :=
          (List.pairwise_cons.mp hsort).2
        have hsy : s.t < y.t := (List.pairwise_cons.mp hrest).1 y hyr
        linarith
    · simp only [chainSplit, if_neg hc] at hx hy
      have hsort2 : List.Pairwise (fun a b => a.t < b.t) (s :: rest) :=
        (List.pairwise_cons.mp hsort).2
      rcases List.mem_cons.mp hx with rfl | hx2
      · have hsv := ih s hsort2 s (List.mem_cons_self _ _) y hy
        have hps : x.t < s.t :=
          (List.pairwise_cons.mp hsort).1 s (List.mem_cons_self _ _)
        linarith
      · exact ih s hsort2 x hx2 y hy

theorem specSegment_flatten (tol : ℚ) :
    ∀ l : List Sample, (specSegment tol l).flatten = l := by
  have main : ∀ (n : Nat) (l : List Sample), l.length ≤ n →
      (specSegment tol l).flatten = l := by
    intro n
    induction n with
    | zero =>
      intro l hl
      match l, hl with
      | [], _ => simp [specSegment]
    | succ n ih =>
      intro l hl
      match l with
      | [] => simp [specSegment]
      | s :: rest =>
        rw [specSegment, List.flatten_cons]
        rw [ih ((chainSplit tol rest s).2)
          (le_trans (chainSplit_snd_length tol rest s) (by simpa using hl))]
        rw [List.cons_append, chainSplit_append tol rest s]
  exact fun l => main l.length l le_rfl

theorem specSegment_ne_nil (tol : ℚ) :
    ∀ (l : List Sample), ∀ c ∈ specSegment tol l, c ≠ [] := by
  have main : ∀ (n : Nat) (l : List Sample), l.length ≤ n →
      ∀ c ∈ specSegment tol l, c ≠ [] := by
    intro n
    induction n with
    | zero =>
      intro l hl
      match l, hl with
      | [], _ => simp [specSegment]
    | succ n ih =>
      intro l hl
      match l with
      | [] => simp [specSegment]
      | s :: rest =>
        rw [specSegment]
        intro c hc
        rcases List.mem_cons.mp hc with rfl | hc2
        · simp
        · exact ih ((chainSplit tol rest s).2)
            (le_trans (chainSplit_snd_length tol rest s) (by simpa using hl)) c hc2
  exact fun l => main l.length l le_rfl

theorem specSegment_pairwise_gap (tol : ℚ) :
    ∀ (l : List Sample), List.Pairwise (fun a b => a.t < b.t) l →
      List.Pairwise (fun c d => ∀ x ∈ c, ∀ y ∈ d, x.t + tol < y.t)
        (specSegment tol l) := by
  have main : ∀ (n : Nat) (l : List Sample), l.length ≤ n →
      List.Pairwise (fun a b => a.t < b.t) l →
      List.Pairwise (fun c d => ∀ x ∈ c, ∀ y ∈ d, x.t + tol < y.t)
        (specSegment tol l) := by
    intro n
    induction n with
    | zero =>
      intro l hl _
      match l, hl with
      | [], _ => simp [specSegment]
    | succ n ih =>
      intro l hl hsort
      match l with
      | [] => simp [specSegment]
      | s :: rest =>
        rw [specSegment, List.pairwise_cons]
        have hsnd : (chainSplit tol rest s).2.length ≤ n :=
          le_trans (chainSplit_snd_length tol rest s) (by simpa using hl)
        have hsub : (chainSplit tol rest s).2.Sublist rest := by
          have h := List.sublist_append_right (chainSplit tol rest s).1
            (chainSplit tol rest s).2
          rwa [chainSplit_append tol rest s] at h
        have hrest : List.Pairwise (fun a b => a.t < b.t) rest :=
          (List.pairwise_cons.mp hsort).2
        constructor
        · intro d hd x hx y hy
          have hyin : y ∈ (chainSplit tol rest s).2 := by
            rw [← specSegment_flatten tol ((chainSplit tol rest s).2)]
            exact List.mem_flatten.mpr ⟨d, hd, hy⟩
          have hsort2 : List.Pairwise (fun a b => a.t < b.t) (s :: rest) := by
            rw [List.pairwise_cons]
            exact ⟨fun b hb => (List.pairwise_cons.mp hsort).1 b hb, hrest⟩
          exact chainSplit_cross tol rest s hsort2 x hx y hyin
        · exact ih _ hsnd (hrest.sublist hsub)
  exact fun l => main l.length l le_rfl

/-! ### Per-satellite grouping -/

theorem firstDedup_mem [DecidableEq α] :
    ∀ (l : List α) (x : α), x ∈ firstDedup l ↔ x ∈ l := by
  have main : ∀ (n : Nat) (l : List α), l.length ≤ n →
      ∀ x, x ∈ firstDedup l ↔ x ∈ l := by
    intro n
    induction n with
    | zero =>
      intro l hl
      match l, hl with
      | [], _ => simp [firstDedup]
    | succ n ih =>
      intro l hl x
      match l with
      | [] => simp [firstDedup]
      | a :: as =>
        rw [firstDedup, List.mem_cons, List.mem_cons,
          ih (as.filter (fun y => y ≠ a))
            (le_trans (List.length_filter_le _ _) (by simpa using hl)) x,
          List.mem_filter]
        by_cases hxa : x = a
        · simp [hxa]
        · simp [hxa]
  exact fun l => main l.length l le_rfl

theorem firstDedup_nodup [DecidableEq α] : ∀ l : List α, (firstDedup l).Nodup := by
  have main : ∀ (n : Nat) (l : List α), l.length ≤ n → (firstDedup l).Nodup := by
    intro n
    induction n with
    | zero =>
      intro l hl
      match l, hl with
      | [], _ => simp [firstDedup]
    | succ n ih =>
      intro l hl
      match l with
      | [] => simp [firstDedup]
      | a :: as =>
        rw [firstDedup, List.nodup_cons]
        have hlen : (as.filter (fun y => y ≠ a)).length ≤ n :=
          le_trans (List.length_filter_le _ _) (by simpa using hl)
        constructor
        · intro hmem
          rw [firstDedup_mem, List.mem_filter] at hmem
          have h2 := hmem.2
          simp at h2
        · exact ih _ hlen
  exact fun l => main l.length l le_rfl

theorem mem_insertOrder {σ : Type} [DecidableEq σ] (altaz : σ → ℚ → Option (ℚ × ℚ))
    (minEl : ℚ) (sats : List σ) (grid : List ℚ) (sat : σ) :
    sat ∈ insertOrder altaz minEl sats grid ↔
      (sat ∈ sats ∧ ∃ t ∈ grid, (sampleAt altaz minEl sat t).isSome) := by
  rw [insertOrder, firstDedup_mem, List.mem_flatten]
  constructor
  · rintro ⟨l, hl, hmem⟩
    rw [List.mem_map] at hl
    obtain ⟨t, ht, rfl⟩ := hl
    rw [List.mem_filter] at hmem
    exact ⟨hmem.1, t, ht, by simpa using hmem.2⟩
  · rintro ⟨hsat, t, ht, hsome⟩
    refine ⟨sats.filter (fun s => (sampleAt altaz minEl s t).isSome), ?_, ?_⟩
    · rw [List.mem_map]
      exact ⟨t, ht, rfl⟩
    · rw [List.mem_filter]
      exact ⟨hsat, by simpa using hsome⟩

theorem visibleSamples_eq_nil_iff {σ : Type} (altaz : σ → ℚ → Option (ℚ × ℚ))
    (minEl : ℚ) (grid : List ℚ) (sat : σ) :
    visibleSamples altaz minEl grid sat = [] ↔
      ∀ t ∈ grid, sampleAt altaz minEl sat t = none := by
  rw [visibleSamples, List.filterMap_eq_nil_iff]

theorem flatten_tag_filter {σ : Type} [DecidableEq σ] (sat : σ)
    (g : σ → List (List Sample)) :
    ∀ (order : List σ), order.Nodup →
      ((order.map (fun s => (g s).map (fun c => (s, c)))).flatten).filter
          (fun r => r.1 = sat)
        = if sat ∈ order then (g sat).map (fun c => (sat, c)) else [] := by
  intro order
  induction order with
  | nil => simp
  | cons a rest ih =>
    intro hnd
    rw [List.nodup_cons] at hnd
    rw [List.map_cons, List.flatten_cons, List.filter_append, ih hnd.2]
    by_cases ha : a = sat
    · subst ha
      rw [if_pos (List.mem_cons_self _ _), if_neg hnd.1]
      have h1 : ((g a).map (fun c => (a, c))).filter (fun r => r.1 = a)
          = (g a).map (fun c => (a, c)) := by
        rw [List.filter_eq_self]
        intro r hr
        rw [List.mem_map] at hr
        obtain ⟨c, _, rfl⟩ := hr
        simp
      rw [h1, List.append_nil]
    · have h1 : ((g a).map (fun c => (a, c))).filter (fun r => r.1 = sat) = [] := by
        rw [List.filter_eq_nil_iff]
        intro r hr
        rw [List.mem_map] at hr
        obtain ⟨c, _, rfl⟩ := hr
        simpa using ha
      rw [h1, List.nil_append]
      by_cases hrest : sat ∈ rest
      · rw [if_pos hrest, if_pos (List.mem_cons_of_mem _ hrest)]
      · rw [if_neg hrest, if_neg (by
          intro hcon
          rcases List.mem_cons.mp hcon with h | h
          · exact ha h.symm
          · exact hrest h)]

theorem sampleAt_elevation {σ : Type} (altaz : σ → ℚ → Option (ℚ × ℚ)) (minEl : ℚ)
    (sat : σ) (t : ℚ) (smp : Sample)
    (h : sampleAt altaz minEl sat t = some smp) : minEl ≤ smp.el := by
  cases haz : altaz sat t with
  | none => simp [sampleAt, haz] at h
  | some p =>
    obtain ⟨el, az⟩ := p
    by_cases hc : minEl ≤ el
    · simp only [sampleAt, haz, if_pos hc, Option.some_inj] at h
      rw [← h]
      exact hc
    · simp [sampleAt, haz, if_neg hc] at h

theorem visibleSamples_pairwise {σ : Type} (altaz : σ → ℚ → Option (ℚ × ℚ))
    (minEl : ℚ) (grid : List ℚ) (sat : σ)
    (h : List.Pairwise (fun a b : ℚ => a < b) grid) :
    List.Pairwise (fun a b : Sample => a.t < b.t)
      (visibleSamples altaz minEl grid sat) := by
  rw [visibleSamples, List.pairwise_filterMap]
  refine h.imp ?_
  intro a b hab x hx y hy
  rw [sampleAt_time altaz minEl sat a x hx, sampleAt_time altaz minEl sat b y hy]
  exact hab

theorem sortByTime_of_sorted (l : List Sample)
    (h : List.Pairwise (fun a b : Sample => a.t < b.t) l) : sortByTime l = l := by
  apply List.mergeSort_of_sorted
  exact h.imp (fun hab => decide_eq_true (le_of_lt hab))

theorem visibleRows_filter {σ : Type} [DecidableEq σ] (altaz : σ → ℚ → Option (ℚ × ℚ))
    (minEl : ℚ) (sats : List σ) (grid : List ℚ) (sat : σ) :
    (visibleRows altaz minEl sats grid).filter (fun r => r.1 = sat)
      = if sat ∈ insertOrder altaz minEl sats grid
        then (segment 180 (sortByTime (visibleSamples altaz minEl grid sat))).map
              (fun c => (sat, c))
        else [] := by
  rw [visibleRows]
  exact flatten_tag_filter sat _ _ (firstDedup_nodup _)

/-- C1: for every satellite of the catalog, the samples of all its emitted
passes are exactly its retained samples — those whose transform succeeds
with elevation at least the threshold — every emitted pass is non-empty, and
any two passes of the satellite are disjoint in time with all their samples
more than the 180 s gap tolerance apart. -/
theorem c1_pass_invariants {σ : Type} [DecidableEq σ] (altaz : σ → ℚ → Option (ℚ × ℚ))
    (minEl : ℚ) (sats : List σ) (t0 t1 step : ℚ) (hs : 0 < step) (sat : σ)
    (hmem : sat ∈ sats) :
    ((((visible_list altaz minEl sats t0 t1 step).filter
          (fun r => r.1 = sat)).map (fun r => r.2)).flatten).Perm
        (visibleSamples altaz minEl (frange t0 t1 step) sat) ∧
    (∀ smp ∈ visibleSamples altaz minEl (frange t0 t1 step) sat, minEl ≤ smp.el) ∧
    (∀ t el az, altaz sat t = some (el, az) →
        ((∃ smp ∈ visibleSamples altaz minEl (frange t0 t1 step) sat, smp.t = t)
          ↔ (t ∈ frange t0 t1 step ∧ minEl ≤ el))) ∧
    (∀ c ∈ ((visible_list altaz minEl sats t0 t1 step).filter
          (fun r => r.1 = sat)).map (fun r => r.2), c ≠ []) ∧
    List.Pairwise
      (fun c d => (∀ x ∈ c, ∀ y ∈ d, x.t + 180 < y.t) ∨
        (∀ x ∈ c, ∀ y ∈ d, y.t + 180 < x.t))
      (((visible_list altaz minEl sats t0 t1 step).filter
          (fun r => r.1 = sat)).map (fun r => r.2)) := by
  have hvl : visible_list altaz minEl sats t0 t1 step
      = rank (visibleRows altaz minEl sats (frange t0 t1 step)) := by
    cases sats with
    | nil => cases hmem
    | cons a as => rfl
  have hperm0 : ((rank (visibleRows altaz minEl sats (frange t0 t1 step))).filter
      (fun r => r.1 = sat)).Perm
      ((visibleRows altaz minEl sats (frange t0 t1 step)).filter
        (fun r => r.1 = sat)) :=
    (List.mergeSort_perm _ _).filter _
  have hgridp : List.Pairwise (fun a b : ℚ => a < b) (frange t0 t1 step) :=
    frange_pairwise t0 t1 step hs
  have hretp : List.Pairwise (fun a b : Sample => a.t < b.t)
      (visibleSamples altaz minEl (frange t0 t1 step) sat) :=
    visibleSamples_pairwise altaz minEl _ sat hgridp
  have hfilter := visibleRows_filter altaz minEl sats (frange t0 t1 step) sat
  rw [sortByTime_of_sorted _ hretp, segment_eq_specSegment] at hfilter
  have hP : (((visible_list altaz minEl sats t0 t1 step).filter
      (fun r => r.1 = sat)).map (fun r => r.2)).Perm
      (specSegment 180 (visibleSamples altaz minEl (frange t0 t1 step) sat)) := by
    by_cases hord : sat ∈ insertOrder altaz minEl sats (frange t0 t1 step)
    · rw [if_pos hord] at hfilter
      rw [hvl]
      have h1 : ((rank (visibleRows altaz minEl sats (frange t0 t1 step))).filter
          (fun r => r.1 = sat)).Perm
          ((specSegment 180 (visibleSamples altaz minEl (frange t0 t1 step) sat)).map
            (fun c => (sat, c))) := hfilter ▸ hperm0
      have h2 := h1.map (fun r : σ × List Sample => r.2)
      rw [List.map_map] at h2
      simpa using h2
    · rw [if_neg hord] at hfilter
      have hnone : ∀ t ∈ frange t0 t1 step, sampleAt altaz minEl sat t = none := by
        intro t ht
        by_contra hcon
        exact hord ((mem_insertOrder altaz minEl sats (frange t0 t1 step) sat).mpr
          ⟨hmem, t, ht, Option.isSome_iff_ne_none.mpr hcon⟩)
      have hret : visibleSamples altaz minEl (frange t0 t1 step) sat = [] :=
        (visibleSamples_eq_nil_iff altaz minEl _ sat).mpr hnone
      have hnil : ((rank (visibleRows altaz minEl sats (frange t0 t1 step))).filter
          (fun r => r.1 = sat)) = [] :=
        List.perm_nil.mp (hfilter ▸ hperm0)
      rw [hvl, hnil, hret]
      simp [specSegment]
  refine ⟨?_, ?_, ?_, ?_, ?_⟩
  · have hj := hP.flatten
    rw [specSegment_flatten] at hj
    simpa using hj
  · intro smp hsmp
    rw [visibleSamples, List.mem_filterMap] at hsmp
    obtain ⟨t, _, hsm⟩ := hsmp
    exact sampleAt_elevation altaz minEl sat t smp hsm
  · intro t el az hsome
    exact mem_visibleSamples_time altaz minEl _ sat t el az hsome
  · intro c hc
    exact specSegment_ne_nil 180 _ c (hP.mem_iff.mp hc)
  · have hsym : ∀ {c d : List Sample},
        ((∀ x ∈ c, ∀ y ∈ d, x.t + 180 < y.t) ∨ (∀ x ∈ c, ∀ y ∈ d, y.t + 180 < x.t)) →
        ((∀ x ∈ d, ∀ y ∈ c, x.t + 180 < y.t) ∨ (∀ x ∈ d, ∀ y ∈ c, y.t + 180 < x.t)) := by
      intro c d hcd
      rcases hcd with h | h
      · exact Or.inr (fun x hx y hy => h y hy x hx)
      · exact Or.inl (fun x hx y hy => h y hy x hx)
    refine (List.Perm.pairwise_iff hsym hP).mpr ?_
    exact (specSegment_pairwise_gap 180 _ hretp).imp (fun h => Or.inl h)

/-- Witness for C1: one satellite, always 45° above the horizon over a
one-minute window sampled every 30 s. -/
theorem c1_pass_invariants_witness :
    ((((visible_list (fun (_ : Nat) (_ : ℚ) => some (45, 10)) 10 [0] 0 60 30).filter
          (fun r => r.1 = 0)).map (fun r => r.2)).flatten).Perm
        (visibleSamples (fun (_ : Nat) (_ : ℚ) => some (45, 10)) 10 (frange 0 60 30) 0) ∧
    (∀ smp ∈ visibleSamples (fun (_ : Nat) (_ : ℚ) => some (45, 10)) 10 (frange 0 60 30) 0,
        (10 : ℚ) ≤ smp.el) ∧
    (∀ t el az, (fun (_ : Nat) (_ : ℚ) => some ((45 : ℚ), (10 : ℚ))) 0 t = some (el, az) →
        ((∃ smp ∈ visibleSamples (fun (_ : Nat) (_ : ℚ) => some (45, 10)) 10
              (frange 0 60 30) 0, smp.t = t)
          ↔ (t ∈ frange 0 60 30 ∧ (10 : ℚ) ≤ el))) ∧
    (∀ c ∈ ((visible_list (fun (_ : Nat) (_ : ℚ) => some (45, 10)) 10 [0] 0 60 30).filter
          (fun r => r.1 = 0)).map (fun r => r.2), c ≠ []) ∧
    List.Pairwise
      (fun c d => (∀ x ∈ c, ∀ y ∈ d, x.t + 180 < y.t) ∨
        (∀ x ∈ c, ∀ y ∈ d, y.t + 180 < x.t))
      (((visible_list (fun (_ : Nat) (_ : ℚ) => some (45, 10)) 10 [0] 0 60 30).filter
          (fun r => r.1 = 0)).map (fun r => r.2)) :=
  c1_pass_invariants (fun (_ : Nat) (_ : ℚ) => some (45, 10)) 10 [0] 0 60 30
    (by norm_num) 0 (List.mem_cons_self _ _)

/-! ### Propagation failures -/

theorem sampleAt_congr {σ : Type} (altaz altaz2 : σ → ℚ → Option (ℚ × ℚ))
    (minEl : ℚ) (s : σ) (hag : ∀ t, altaz s t = altaz2 s t) :
    sampleAt altaz minEl s = sampleAt altaz2 minEl s := by
  funext t
  rw [sampleAt, sampleAt, hag t]

/-- C7: a propagation failure — the abstract transform answering `none`,
matching Skyfield's NaN degraded result — at some (satellite, instant) pair
never contributes a sample; it is local to that satellite: every other
satellite's sample list is unchanged and its rows in the final output are
preserved (up to the ranking permutation), so the run completes instead of
aborting. -/
theorem c7_failure_localised {σ : Type} [DecidableEq σ]
    (altaz altaz2 : σ → ℚ → Option (ℚ × ℚ)) (minEl : ℚ) (sats : List σ)
    (t0 t1 step : ℚ) (s0 : σ)
    (hagree : ∀ s, s ≠ s0 → ∀ t, altaz s t = altaz2 s t) :
    (∀ t : ℚ, altaz s0 t = none →
        ∀ grid : List ℚ, ∀ smp ∈ visibleSamples altaz minEl grid s0, smp.t ≠ t) ∧
    (∀ s, s ≠ s0 → ∀ grid : List ℚ,
        visibleSamples altaz minEl grid s = visibleSamples altaz2 minEl grid s) ∧
    (∀ s, s ∈ sats → s ≠ s0 →
        ((visible_list altaz minEl sats t0 t1 step).filter (fun r => r.1 = s)).Perm
          ((visible_list altaz2 minEl sats t0 t1 step).filter (fun r => r.1 = s))) := by
  have hsamples : ∀ s, s ≠ s0 → ∀ grid : List ℚ,
      visibleSamples altaz minEl grid s = visibleSamples altaz2 minEl grid s := by
    intro s hne grid
    rw [visibleSamples, visibleSamples,
      sampleAt_congr altaz altaz2 minEl s (hagree s hne)]
  refine ⟨?_, hsamples, ?_⟩
  · intro t hfail grid smp hsmp
    rw [visibleSamples, List.mem_filterMap] at hsmp
    obtain ⟨u, _, hsm⟩ := hsmp
    have hut : smp.t = u := sampleAt_time altaz minEl s0 u smp hsm
    intro hcon
    rw [hcon] at hut
    rw [← hut] at hsm
    simp [sampleAt, hfail] at hsm
  · intro s hsmem hne
    have hvl1 : visible_list altaz minEl sats t0 t1 step
        = rank (visibleRows altaz minEl sats (frange t0 t1 step)) := by
      cases sats with
      | nil => cases hsmem
      | cons a as => rfl
    have hvl2 : visible_list altaz2 minEl sats t0 t1 step
        = rank (visibleRows altaz2 minEl sats (frange t0 t1 step)) := by
      cases sats with
      | nil => cases hsmem
      | cons a as => rfl
    have hfeq : (visibleRows altaz minEl sats (frange t0 t1 step)).filter
          (fun r => r.1 = s)
        = (visibleRows altaz2 minEl sats (frange t0 t1 step)).filter
          (fun r => r.1 = s) := by
      rw [visibleRows_filter, visibleRows_filter]
      have hordiff : s ∈ insertOrder altaz minEl sats (frange t0 t1 step)
          ↔ s ∈ insertOrder altaz2 minEl sats (frange t0 t1 step) := by
        rw [mem_insertOrder, mem_insertOrder,
          sampleAt_congr altaz altaz2 minEl s (hagree s hne)]
      rw [hsamples s hne]
      by_cases hord : s ∈ insertOrder altaz minEl sats (frange t0 t1 step)
      · rw [if_pos hord, if_pos (hordiff.mp hord)]
      · rw [if_neg hord, if_neg (fun hcon => hord (hordiff.mpr hcon))]
    rw [hvl1, hvl2]
    refine ((List.mergeSort_perm _ _).filter _).trans ?_
    rw [hfeq]
    exact ((List.mergeSort_perm _ _).filter _).symm

/-- Witness for C7: satellite 0 always fails to propagate while satellite 1
is unaffected; the failing instants contribute nothing for satellite 0 and
satellite 1's rows are the same as under a propagator where satellite 0
succeeds. -/
theorem c7_failure_localised_witness :
    (∀ t : ℚ, (fun (s : Nat) (_ : ℚ) => if s = 0 then none else some ((90 : ℚ), (0 : ℚ))) 0 t
          = none →
        ∀ grid : List ℚ, ∀ smp ∈ visibleSamples
            (fun (s : Nat) (_ : ℚ) => if s = 0 then none else some (90, 0)) 10 grid 0,
          smp.t ≠ t) ∧
    (∀ s : Nat, s ≠ 0 → ∀ grid : List ℚ,
        visibleSamples (fun (s : Nat) (_ : ℚ) => if s = 0 then none else some (90, 0))
            10 grid s
          = visibleSamples (fun (s : Nat) (_ : ℚ) => if s = 0 then some (45, 0)
              else some (90, 0)) 10 grid s) ∧
    (∀ s : Nat, s ∈ [0, 1] → s ≠ 0 →
        ((visible_list (fun (s : Nat) (_ : ℚ) => if s = 0 then none else some (90, 0))
            10 [0, 1] 0 60 30).filter (fun r => r.1 = s)).Perm
          ((visible_list (fun (s : Nat) (_ : ℚ) => if s = 0 then some (45, 0)
              else some (90, 0)) 10 [0, 1] 0 60 30).filter (fun r => r.1 = s))) :=
  c7_failure_localised
    (fun (s : Nat) (_ : ℚ) => if s = 0 then none else some (90, 0))
    (fun (s : Nat) (_ : ℚ) => if s = 0 then some (45, 0) else some (90, 0))
    10 [0, 1] 0 60 30 0
    (fun s hs _ => by simp [hs])

/-! ### Time window handling -/

/-- C8 counterexample: a request with start 1 s after epoch and end at epoch
(start > end) passes the argument handling of main — `windowOf` returns the
window, no usage error — and the engine then runs to completion on the
non-empty catalog, returning the normal empty result instead of aborting
before computation. -/
theorem c8_counterexample :
    windowOf (Args.mk false 15 (some 1) (some 0)) 0 = Except.ok (1, 0) ∧
    visible_list (fun (_ : Nat) (_ : ℚ) => some (90, 0)) 10 [0] 1 0 30 = [] := by
  constructor
  · rfl
  · have hgrid : frange 1 0 30 = [] :=
      frange_nil 1 0 30 (fun hc => absurd hc.2 (by norm_num))
    have hvl : visible_list (fun (_ : Nat) (_ : ℚ) => some (90, 0)) 10 [0] 1 0 30
        = rank (visibleRows (fun (_ : Nat) (_ : ℚ) => some (90, 0)) 10 [0]
            (frange 1 0 30)) := rfl
    rw [hvl, hgrid]
    simp [visibleRows, insertOrder, firstDedup, rank]

/-- C8 (amended): main performs no ordering check on an explicit window:
whenever both --start and --end are supplied, `windowOf` accepts them even
with start > end, the sampling grid is then empty, and the engine returns
the normal empty pass list; no abort happens before or during computation. -/
theorem c8_window_not_validated {σ : Type} [DecidableEq σ]
    (altaz : σ → ℚ → Option (ℚ × ℚ)) (minEl step nowT : ℚ) (sats : List σ)
    (args : Args) (s e : ℚ) (hnow : args.now = false)
    (hstart : args.startQ = some s) (hend : args.endQ = some e) (hlt : e < s) :
    windowOf args nowT = Except.ok (s, e) ∧
    frange s e step = [] ∧
    visible_list altaz minEl sats s e step = [] := by
  have hgrid : frange s e step = [] :=
    frange_nil s e step (fun hc => absurd hc.2 (not_le.mpr hlt))
  refine ⟨?_, hgrid, ?_⟩
  · rw [windowOf, if_neg (by rw [hnow]; exact Bool.false_ne_true), hstart, hend]
  · cases sats with
    | nil => rfl
    | cons a as =>
      have hvl : visible_list altaz minEl (a :: as) s e step
          = rank (visibleRows altaz minEl (a :: as) (frange s e step)) := rfl
      rw [hvl, hgrid]
      simp [visibleRows, insertOrder, firstDedup, rank]

/-- Witness for the amended C8 at a concrete inverted window. -/
theorem c8_window_not_validated_witness :
    windowOf (Args.mk false 15 (some 1) (some 0)) 5 = Except.ok (1, 0) ∧
    frange 1 0 30 = [] ∧
    visible_list (fun (_ : Nat) (_ : ℚ) => some (90, 0)) 10 [0] 1 0 30 = [] :=
  c8_window_not_validated (fun (_ : Nat) (_ : ℚ) => some (90, 0)) 10 30 5 [0]
    (Args.mk false 15 (some 1) (some 0)) 1 0 rfl rfl rfl (by norm_num)

end Starlink
